import Mathlib

/-!
Verification of the reslice marker-grid slicing and playback engine.

The development shallowly embeds the engine's arithmetic and state
transitions: C `float` computations are modelled exactly over `ℚ`,
machine integers (`int`, `size_t`) over `ℤ` and `ℕ`, and the C casts
and rounding helpers are made explicit (`cppTrunc` for `(int)`/`(size_t)`
conversion, `roundHalfAway` for C `round`).
-/

namespace Reslice

/-- The C cast `(int)x` / `(size_t)x` truncates toward zero. -/
def cppTrunc (x : ℚ) : ℤ := if 0 ≤ x then ⌊x⌋ else ⌈x⌉

/-- The C function `round` rounds to nearest, ties half away from zero. -/
def roundHalfAway (x : ℚ) : ℤ := if 0 ≤ x then ⌊x + 1/2⌋ else ⌈x - 1/2⌉

theorem roundHalfAway_intCast (k : ℤ) : roundHalfAway (k : ℚ) = k := by
  rw [roundHalfAway]
  rcases le_or_lt 0 (k : ℚ) with h | h
  · rw [if_pos h, add_comm, Int.floor_add_int]
    norm_num
  · rw [if_neg (not_le.mpr h), sub_eq_add_neg, add_comm, Int.ceil_add_int]
    norm_num

/-- From `seconds_to_ticks` in the source:
`int seconds_to_ticks(float sec, float bpm, int ppqn)` returns
`(int)(sec * (bpm / 60.f) * ppqn)`. -/
def seconds_to_ticks (sec bpm : ℚ) (ppqn : ℤ) : ℤ :=
  cppTrunc (sec * (bpm / 60) * ppqn)

/-- Modelled from the spec: `secondsToGridTicks(t, bpm, ticksPerBar)` is said to
round `t * (bpm/60) * ticksPerBar / 4` to the nearest integer, half away from
zero.  Stated here only to compare against `seconds_to_ticks` from the source. -/
def secondsToGridTicks_spec (t bpm : ℚ) (ticksPerBar : ℤ) : ℤ :=
  roundHalfAway (t * (bpm / 60) * ticksPerBar / 4)

/-- From the quantization block of `detect_onsets_aubio`:
`seconds_per_beat = 60/bpm`, `seconds_per_bar = seconds_per_beat * 4`,
`quantize_unit = seconds_per_bar / ppqn`. -/
def quantize_unit (bpm : ℚ) (ppqn : ℤ) : ℚ := ((60 / bpm) * 4) / ppqn

/-- From the quantization block of `detect_onsets_aubio`:
`grid_pos = marker.time / quantize_unit; marker.time = round(grid_pos) * quantize_unit`. -/
def quantize (t bpm : ℚ) (ppqn : ℤ) : ℚ :=
  (roundHalfAway (t / quantize_unit bpm ppqn) : ℚ) * quantize_unit bpm ppqn

theorem quantize_unit_pos {bpm : ℚ} {ppqn : ℤ} (hb : 0 < bpm) (hp : 0 < ppqn) :
    0 < quantize_unit bpm ppqn := by
  have hq : (0 : ℚ) < (ppqn : ℚ) := by exact_mod_cast hp
  rw [quantize_unit]
  positivity

/-- C4, counterexample: the code has no guard for invalid bpm, so quantizing
with `bpm = 0` does not return the input unchanged: in the exact model the
division-by-zero convention sends `t = 1` to `0`, not to `1` (in the C float
semantics the same expression produces NaN, also different from `1`). -/
theorem c4_quantize_zero_bpm_counterexample :
    quantize 1 0 4 = 0 ∧ quantize 1 0 4 ≠ 1 := by
  constructor
  · norm_num [quantize, quantize_unit, roundHalfAway]
  · norm_num [quantize, quantize_unit, roundHalfAway]

/-- C4, amended: quantization with `bpm = 0` is NOT a no-op.  The source's
quantization block performs `60/bpm` unguarded, so for every nonzero time `t`
and every subdivision count `n`, `quantize t 0 n` differs from `t` (it is `0`
in the exact rational model of the division; in IEEE float it is NaN). -/
theorem c4_quantize_zero_bpm_not_identity (t : ℚ) (n : ℤ) (ht : t ≠ 0) :
    quantize t 0 n ≠ t := by
  have h : quantize t 0 n = 0 := by
    simp [quantize, quantize_unit]
  rw [h]
  exact fun h0 => ht h0.symm

/-- C4, witness for the amended theorem at `t = 1`, `n = 4`. -/
theorem c4_quantize_zero_bpm_not_identity_witness :
    quantize 1 0 4 ≠ 1 :=
  c4_quantize_zero_bpm_not_identity 1 4 (by norm_num)

/-- C8, counterexample: at `t = 1 s`, `bpm = 60`, `ppqn = 480` the source's
`seconds_to_ticks` yields `480` (one quarter note at 480 ticks per quarter),
while the spec formula `round(t * (bpm/60) * ticksPerBar / 4)` yields `120`;
the code neither divides by 4 nor rounds to nearest. -/
theorem c8_seconds_to_ticks_counterexample :
    seconds_to_ticks 1 60 480 = 480 ∧ secondsToGridTicks_spec 1 60 480 = 120 ∧
      seconds_to_ticks 1 60 480 ≠ secondsToGridTicks_spec 1 60 480 := by
  refine ⟨?_, ?_, ?_⟩
  · norm_num [seconds_to_ticks, cppTrunc, Int.floor_intCast]
  · norm_num [secondsToGridTicks_spec, roundHalfAway, Int.floor_eq_iff]
  · norm_num [seconds_to_ticks, secondsToGridTicks_spec, cppTrunc, roundHalfAway,
      Int.floor_intCast, Int.floor_eq_iff]

/-- C8, amended: `seconds_to_ticks` computes `sec * (bpm/60) * ppqn` (with no
division by 4) truncated toward zero rather than rounded to nearest: for
nonnegative arguments the result `n` satisfies `n ≤ x < n + 1` for
`x = sec * (bpm/60) * ppqn`. -/
theorem c8_seconds_to_ticks_trunc (sec bpm : ℚ) (ppqn : ℤ)
    (hs : 0 ≤ sec) (hb : 0 ≤ bpm) (hp : 0 ≤ ppqn) :
    (seconds_to_ticks sec bpm ppqn : ℚ) ≤ sec * (bpm / 60) * ppqn ∧
      sec * (bpm / 60) * ppqn < seconds_to_ticks sec bpm ppqn + 1 := by
  have hx : 0 ≤ sec * (bpm / 60) * (ppqn : ℚ) := by
    have hq : (0 : ℚ) ≤ (ppqn : ℚ) := by exact_mod_cast hp
    positivity
  rw [seconds_to_ticks, cppTrunc, if_pos hx]
  exact ⟨Int.floor_le _, Int.lt_floor_add_one _⟩

/-- C8, witness for the amended theorem at `sec = 1`, `bpm = 60`, `ppqn = 480`. -/
theorem c8_seconds_to_ticks_trunc_witness :
    ((seconds_to_ticks 1 60 480 : ℚ) ≤ 1 * ((60 : ℚ) / 60) * (480 : ℤ) ∧
      1 * ((60 : ℚ) / 60) * (480 : ℤ) < seconds_to_ticks 1 60 480 + 1) :=
  c8_seconds_to_ticks_trunc 1 60 480 (by norm_num) (by norm_num) (by norm_num)

/-- C9: quantization is idempotent for `bpm > 0` and `ppqn > 0`: snapping an
already-snapped time to the same grid leaves it unchanged. -/
theorem c9_quantize_idempotent (t bpm : ℚ) (n : ℤ) (hb : 0 < bpm) (hn : 0 < n) :
    quantize (quantize t bpm n) bpm n = quantize t bpm n := by
  have hu : quantize_unit bpm n ≠ 0 := (quantize_unit_pos hb hn).ne'
  rw [quantize, quantize, mul_div_assoc, div_self hu, mul_one, roundHalfAway_intCast]

/-- C9, witness at `t = 0.101`, `bpm = 120`, `n = 16`. -/
theorem c9_quantize_idempotent_witness :
    quantize (quantize (101/1000) 120 16) 120 16 = quantize (101/1000) 120 16 :=
  c9_quantize_idempotent (101/1000) 120 16 (by norm_num) (by norm_num)

/-- The repeated sorting idiom
`std::sort(markers.begin(), markers.end(), [](a,b){return a.time < b.time;})`:
any comparison sort returns the ascending permutation; modelled by insertion
sort. -/
def sortTimes (l : List ℚ) : List ℚ := List.insertionSort (· ≤ ·) l

theorem sortTimes_sorted (l : List ℚ) : (sortTimes l).Sorted (· ≤ ·) :=
  List.sorted_insertionSort _ l

theorem sortTimes_perm (l : List ℚ) : (sortTimes l).Perm l :=
  List.perm_insertionSort _ l

/-- Tail of `std::unique` over markers with the predicate
`fabs(a.time - b.time) < 0.001f`; the first argument is the last kept marker. -/
def uniqueNear (a : ℚ) : List ℚ → List ℚ
  | [] => []
  | y :: ys => if |y - a| < 1/1000 then uniqueNear a ys else y :: uniqueNear y ys

/-- The `std::unique` + `erase` step at the end of `detect_onsets_aubio`:
drops every marker within 1 ms of the last kept marker. -/
def dedupNear : List ℚ → List ℚ
  | [] => []
  | x :: xs => x :: uniqueNear x xs

/-- The marker post-processing pipeline ending `detect_onsets_aubio`: sort the
raw onsets ascending, snap each one to the bpm grid, merge duplicates within
1 ms. -/
def quantize_markers (onsets : List ℚ) (bpm : ℚ) (ppqn : ℤ) : List ℚ :=
  dedupNear ((sortTimes onsets).map (fun t => quantize t bpm ppqn))

theorem chain_uniqueNear (ys : List ℚ) (a : ℚ) :
    List.Chain (fun u v => ¬ |v - u| < 1/1000) a (uniqueNear a ys) := by
  induction ys generalizing a with
  | nil => exact List.Chain.nil
  | cons y ys ih =>
    rw [uniqueNear]
    split
    · exact ih a
    · exact List.Chain.cons (by assumption) (ih y)

theorem chain'_dedupNear (l : List ℚ) :
    List.Chain' (fun u v => ¬ |v - u| < 1/1000) (dedupNear l) := by
  cases l with
  | nil => exact trivial
  | cons x xs => exact chain_uniqueNear xs x

/-- C5: quantizing the raw onsets `[0.101, 0.198, 0.401]` s at `bpm = 120`
with grid unit `0.125` s (so `ppqn = 16`, since the unit is
`(60/bpm)*4/ppqn = 2/16`) rounds each onset to the nearest multiple of
`0.125` half away from zero, giving `[0.125, 0.25, 0.375]` (`0.401` maps to
`0.375`, not `0.5`), and the final merge step guarantees no two consecutive
surviving markers are within 1 ms of each other. -/
theorem c5_autodetect_quantization :
    quantize_markers [101/1000, 198/1000, 401/1000] 120 16 = [1/8, 1/4, 3/8] ∧
      ∀ l : List ℚ, List.Chain' (fun u v => ¬ |v - u| < 1/1000) (dedupNear l) := by
  constructor
  · norm_num [quantize_markers, sortTimes, List.insertionSort, List.orderedInsert,
      quantize, quantize_unit, roundHalfAway, dedupNear, uniqueNear, Int.floor_eq_iff,
      abs_of_nonneg]
  · exact chain'_dedupNear

/-- Left-click marker insertion from `draw_waveform_vertical`:
`markers.push_back({t,true}); std::sort(...)` — note there is no epsilon
check before the push. -/
def insert_marker (ms : List ℚ) (t : ℚ) : List ℚ := sortTimes (ms ++ [t])

/-- Drag-to-move from the marker list in `main`:
`markers[i].time = std::max(0.f, std::min(markers[i].time, maxT))` followed by
`std::sort(...)`. -/
def move_marker (ms : List ℚ) (i : ℕ) (newTime maxT : ℚ) : List ℚ :=
  sortTimes (ms.set i (max 0 (min newTime maxT)))

/-- Scan of `std::min_element` with comparator
`fabs(a.time - t) < fabs(b.time - t)`: `best`/`bi` hold the current minimum
and its index, `i` the index of the next element. -/
def closest_go (t : ℚ) : ℚ → ℕ → ℕ → List ℚ → ℕ
  | _, bi, _, [] => bi
  | best, bi, i, y :: ys =>
      if |y - t| < |best - t| then closest_go t y i (i+1) ys
      else closest_go t best bi (i+1) ys

/-- Index of the first marker with minimal `|time - t|` (`std::min_element`). -/
def closest_idx (t : ℚ) : List ℚ → ℕ
  | [] => 0
  | x :: xs => closest_go t x 0 1 xs

/-- Right-click removal from `draw_waveform_vertical`: erase the marker
closest to the clicked time, guarded by `!markers.empty()`. -/
def remove_closest (ms : List ℚ) (t : ℚ) : List ℚ :=
  if ms.isEmpty then ms else ms.eraseIdx (closest_idx t ms)

theorem sorted_eraseIdx {ms : List ℚ} (h : ms.Sorted (· ≤ ·)) (i : ℕ) :
    (ms.eraseIdx i).Sorted (· ≤ ·) :=
  h.sublist (List.eraseIdx_sublist ms i)

/-- C7, counterexample: inserting a time exactly equal to (hence within 1 ms
of) an existing marker is not a no-op — the code pushes and re-sorts with no
epsilon check, leaving a duplicate pair, so the store is no longer strictly
ascending. -/
theorem c7_insert_epsilon_counterexample :
    insert_marker [1/2] (1/2) = [1/2, 1/2] ∧
      insert_marker [1/2] (1/2) ≠ [1/2] ∧
      |(1/2 : ℚ) - 1/2| < 1/1000 ∧
      ¬ List.Chain' (· < ·) (insert_marker [1/2] (1/2)) := by
  have h : insert_marker [(1/2 : ℚ)] (1/2) = [1/2, 1/2] := by
    norm_num [insert_marker, sortTimes, List.insertionSort, List.orderedInsert]
  refine ⟨h, by rw [h]; simp, by norm_num, ?_⟩
  rw [h]
  simp only [List.chain'_cons, List.chain'_singleton, and_true]
  norm_num

/-- C7, amended: each marker-store operation re-establishes sortedness in the
weak sense — after `insert`, `remove` (closest) and `move` the stored times
are ascending (non-strictly) — but the store is NOT kept duplicate-free:
`insert` performs no epsilon check (the result is always a permutation of the
old store plus the new time, even when the new time is within 1 ms of an
existing marker), `remove` erases one element of a sorted store keeping it
sorted, and `move` clamps the new time to `[0, maxT]` and re-sorts. -/
theorem c7_marker_ops_sorted (ms : List ℚ) (t : ℚ) (i : ℕ) (newTime maxT : ℚ) :
    (insert_marker ms t).Sorted (· ≤ ·) ∧
      (insert_marker ms t).Perm (ms ++ [t]) ∧
      (ms.Sorted (· ≤ ·) → (remove_closest ms t).Sorted (· ≤ ·)) ∧
      (remove_closest ms t).Sublist ms ∧
      (move_marker ms i newTime maxT).Sorted (· ≤ ·) ∧
      (move_marker ms i newTime maxT).Perm (ms.set i (max 0 (min newTime maxT))) := by
  refine ⟨sortTimes_sorted _, sortTimes_perm _, ?_, ?_, sortTimes_sorted _, sortTimes_perm _⟩
  · intro h
    rw [remove_closest]
    split
    · exact h
    · exact sorted_eraseIdx h _
  · rw [remove_closest]
    split
    · exact List.Sublist.refl ms
    · exact List.eraseIdx_sublist ms _

/-- C7, witness: the amended theorem applied to the store `[1, 2]` with a
removal at `t = 3`, discharging the sortedness hypothesis there. -/
theorem c7_marker_ops_sorted_witness :
    (remove_closest [1, 2] 3).Sorted (· ≤ ·) :=
  (c7_marker_ops_sorted [1, 2] 3 0 5 2).2.2.1 (by norm_num [List.sorted_cons])

/-- A derived sample region, `struct SampleRegion { int start_sample, end_sample, midi_key; }`. -/
structure SampleRegion where
  start_sample : ℤ
  end_sample : ℤ
  midi_key : ℤ
deriving DecidableEq

/-- Marker time to sample index, `int(markers[i].time * samplerate + 0.5f)`. -/
def markerSample (samplerate : ℤ) (t : ℚ) : ℤ := cppTrunc (t * samplerate + 1/2)

/-- Loop of `compute_sample_regions`: marker `i` opens a region at its rounded
sample index, closing at marker `i+1`'s rounded index, or at `total_samples`
for the last marker; the accumulator carries `base_note + i`. -/
def regionsFrom (samplerate total_samples : ℤ) : List ℚ → ℤ → List SampleRegion
  | [], _ => []
  | [t], note => [⟨markerSample samplerate t, total_samples, note⟩]
  | t :: t2 :: rest, note =>
      ⟨markerSample samplerate t, markerSample samplerate t2, note⟩ ::
        regionsFrom samplerate total_samples (t2 :: rest) (note + 1)

/-- `compute_sample_regions(markers, samplerate, total_samples, base_note)`:
one region spanning the whole buffer when there are no markers, otherwise one
region per marker. -/
def compute_sample_regions (markers : List ℚ) (samplerate total_samples base_note : ℤ) :
    List SampleRegion :=
  if markers.isEmpty then [⟨0, total_samples, base_note⟩]
  else regionsFrom samplerate total_samples markers base_note

/-- The region end matched against the remaining markers: the next marker's
rounded sample index, or `total_samples` when no marker remains. -/
def nextBound (samplerate total_samples : ℤ) : List ℚ → ℤ
  | [] => total_samples
  | t2 :: _ => markerSample samplerate t2

theorem regionsFrom_cons (sr tot : ℤ) (t : ℚ) (rest : List ℚ) (k : ℤ) :
    regionsFrom sr tot (t :: rest) k =
      ⟨markerSample sr t, nextBound sr tot rest, k⟩ :: regionsFrom sr tot rest (k + 1) := by
  cases rest <;> rfl

/-- Sample index `j` lies in one of the regions of `rs`. -/
def coveredBy (rs : List SampleRegion) (j : ℤ) : Prop :=
  ∃ r ∈ rs, r.start_sample ≤ j ∧ j < r.end_sample

theorem markerSample_mono {sr : ℤ} (hsr : 0 < sr) {a b : ℚ} (ha : 0 ≤ a) (hab : a ≤ b) :
    markerSample sr a ≤ markerSample sr b := by
  have hsr' : (0 : ℚ) ≤ (sr : ℚ) := by exact_mod_cast hsr.le
  have h1 : (0 : ℚ) ≤ a * sr + 1/2 := by positivity
  have h2 : (0 : ℚ) ≤ b * sr + 1/2 := by nlinarith
  rw [markerSample, markerSample, cppTrunc, cppTrunc, if_pos h1, if_pos h2]
  exact Int.floor_le_floor (by nlinarith)

theorem markerSample_le_total {sr tot : ℤ} (hsr : 0 < sr) {t : ℚ}
    (ht0 : 0 ≤ t) (ht : t * sr < tot) : markerSample sr t ≤ tot := by
  have hsr' : (0 : ℚ) ≤ (sr : ℚ) := by exact_mod_cast hsr.le
  have h1 : (0 : ℚ) ≤ t * sr + 1/2 := by positivity
  rw [markerSample, cppTrunc, if_pos h1]
  have : t * sr + 1/2 < (tot : ℚ) + 1 := by linarith
  exact Int.lt_add_one_iff.mp (Int.floor_lt.mpr (by push_cast; linarith))

theorem regionsFrom_length (sr tot : ℤ) (ms : List ℚ) :
    ∀ k, (regionsFrom sr tot ms k).length = ms.length := by
  induction ms with
  | nil => intro k; rfl
  | cons t rest ih =>
    intro k
    rw [regionsFrom_cons]
    simp [ih]

theorem regionsFrom_chain (sr tot : ℤ) (ms : List ℚ) :
    ∀ k, List.Chain' (fun a b => a.end_sample = b.start_sample) (regionsFrom sr tot ms k) := by
  induction ms with
  | nil => intro k; exact trivial
  | cons t rest ih =>
    intro k
    rw [regionsFrom_cons]
    rw [List.chain'_cons']
    refine ⟨?_, ih (k + 1)⟩
    intro y hy
    cases rest with
    | nil => simp [regionsFrom] at hy
    | cons t2 r2 =>
      rw [regionsFrom_cons] at hy
      simp only [List.head?_cons, Option.mem_def, Option.some.injEq] at hy
      rw [← hy]
      rfl

theorem regionsFrom_getLast (sr tot : ℤ) (ms : List ℚ) :
    ∀ k, ms ≠ [] →
      ((regionsFrom sr tot ms k).getLast?).map SampleRegion.end_sample = some tot := by
  induction ms with
  | nil => intro k h; exact absurd rfl h
  | cons t rest ih =>
    intro k _
    rw [regionsFrom_cons]
    cases rest with
    | nil => rfl
    | cons t2 r2 =>
      rw [regionsFrom_cons, List.getLast?_cons_cons, ← regionsFrom_cons]
      exact ih (k + 1) (by simp)

theorem regionsFrom_end_le {sr tot : ℤ} (hsr : 0 < sr) (ms : List ℚ) :
    ∀ k, (∀ x ∈ ms, 0 ≤ x ∧ x * sr < tot) →
      ∀ r ∈ regionsFrom sr tot ms k, r.end_sample ≤ tot := by
  induction ms with
  | nil => intro k _ r hr; simp [regionsFrom] at hr
  | cons t rest ih =>
    intro k hb r hr
    rw [regionsFrom_cons] at hr
    rcases List.mem_cons.mp hr with h | h
    · subst h
      cases rest with
      | nil => exact le_rfl
      | cons t2 r2 =>
        have hb2 := hb t2 (by simp)
        exact markerSample_le_total hsr hb2.1 hb2.2
    · exact ih (k + 1) (fun x hx => hb x (List.mem_cons_of_mem t hx)) r h

theorem regionsFrom_start_le_end {sr tot : ℤ} (hsr : 0 < sr) (ms : List ℚ) :
    ∀ k, List.Chain' (· ≤ ·) ms → (∀ x ∈ ms, 0 ≤ x ∧ x * sr < tot) →
      ∀ r ∈ regionsFrom sr tot ms k, r.start_sample ≤ r.end_sample := by
  induction ms with
  | nil => intro k _ _ r hr; simp [regionsFrom] at hr
  | cons t rest ih =>
    intro k hc hb r hr
    rw [regionsFrom_cons] at hr
    rcases List.mem_cons.mp hr with h | h
    · subst h
      have hbt := hb t (by simp)
      cases rest with
      | nil => exact markerSample_le_total hsr hbt.1 hbt.2
      | cons t2 r2 =>
        have hle : t ≤ t2 := (List.chain'_cons.mp hc).1
        exact markerSample_mono hsr hbt.1 hle
    · exact ih (k + 1) hc.tail (fun x hx => hb x (List.mem_cons_of_mem t hx)) r h

theorem coveredBy_cons (r : SampleRegion) (rs : List SampleRegion) (j : ℤ) :
    coveredBy (r :: rs) j ↔ (r.start_sample ≤ j ∧ j < r.end_sample) ∨ coveredBy rs j := by
  simp [coveredBy]

theorem regionsFrom_covered {sr tot : ℤ} (hsr : 0 < sr) (rest : List ℚ) :
    ∀ (t : ℚ) (k : ℤ), List.Chain' (· ≤ ·) (t :: rest) →
      (∀ x ∈ t :: rest, 0 ≤ x ∧ x * sr < tot) →
      ∀ j : ℤ, coveredBy (regionsFrom sr tot (t :: rest) k) j ↔
        (markerSample sr t ≤ j ∧ j < tot) := by
  induction rest with
  | nil =>
    intro t k _ _ j
    rw [regionsFrom_cons]
    simp [coveredBy, nextBound, regionsFrom]
  | cons t2 r2 ih =>
    intro t k hc hb j
    rw [regionsFrom_cons, coveredBy_cons]
    have hbt := hb t (by simp)
    have hbt2 := hb t2 (by simp)
    have hmono : markerSample sr t ≤ markerSample sr t2 :=
      markerSample_mono hsr hbt.1 (List.chain'_cons.mp hc).1
    have htot : markerSample sr t2 ≤ tot := markerSample_le_total hsr hbt2.1 hbt2.2
    rw [ih t2 (k + 1) hc.tail (fun x hx => hb x (List.mem_cons_of_mem t hx)) j]
    show ((markerSample sr t ≤ j ∧ j < markerSample sr t2) ∨ _) ↔ _
    omega

theorem chain_end_start_head_le (l : List SampleRegion) :
    ∀ r : SampleRegion,
      List.Chain' (fun a b => a.end_sample = b.start_sample) (r :: l) →
      (∀ x ∈ r :: l, x.start_sample ≤ x.end_sample) →
      ∀ b ∈ l, r.end_sample ≤ b.start_sample := by
  induction l with
  | nil => intro r _ _ b hb; simp at hb
  | cons b l2 ih =>
    intro r hc hse b2 hb2
    have heq : r.end_sample = b.start_sample := (List.chain'_cons.mp hc).1
    rcases List.mem_cons.mp hb2 with h | h
    · subst h; exact le_of_eq heq
    · have hbse : b.start_sample ≤ b.end_sample := hse b (by simp)
      have := ih b (List.chain'_cons.mp hc).2
        (fun x hx => hse x (List.mem_cons_of_mem r hx)) b2 h
      omega

theorem chain_end_start_pairwise (l : List SampleRegion)
    (hc : List.Chain' (fun a b => a.end_sample = b.start_sample) l)
    (hse : ∀ x ∈ l, x.start_sample ≤ x.end_sample) :
    List.Pairwise (fun a b => a.end_sample ≤ b.start_sample) l := by
  induction l with
  | nil => exact List.Pairwise.nil
  | cons r l2 ih =>
    refine List.Pairwise.cons ?_ ?_
    · exact chain_end_start_head_le l2 r hc hse
    · exact ih hc.tail (fun x hx => hse x (List.mem_cons_of_mem r hx))

/-- C1, counterexample: for the single marker `[1.0]` s on a 50-sample buffer
at 10 Hz (so the marker is strictly ascending in `[0, bufferDuration)`), the
derived region list is `[(10, 50, 36)]`: its union is `[10, 50)`, which does
NOT equal `[0, 50)` — sample index `0` lies in `[0, bufferLength)` but in no
region. -/
theorem c1_coverage_counterexample :
    compute_sample_regions [1] 10 50 36 = [⟨10, 50, 36⟩] ∧
      ¬ coveredBy (compute_sample_regions [1] 10 50 36) 0 ∧
      (0 : ℤ) ≤ 0 ∧ (0 : ℤ) < 50 ∧ (0 : ℚ) ≤ 1 ∧ (1 : ℚ) < 50 / 10 := by
  have h : compute_sample_regions [1] 10 50 36 = [⟨10, 50, 36⟩] := by
    norm_num [compute_sample_regions, regionsFrom, markerSample, cppTrunc, Int.floor_eq_iff]
  refine ⟨h, ?_, by norm_num, by norm_num, by norm_num, by norm_num⟩
  rw [h]
  simp [coveredBy]

/-- C1, amended: for every non-empty strictly ascending marker list in
`[0, bufferDuration)`, `compute_sample_regions` returns exactly one region per
marker; the regions are contiguous (each end equals the next start) and
non-overlapping, the last region ends at `total_samples`, every region end is
at most `total_samples` (though no clamping is performed — the bound follows
from the markers lying inside the buffer), and their union equals
`[round(markers[0]*samplerate), total_samples)` — not `[0, total_samples)`
unless the first marker rounds to sample `0`.  For an empty marker list the
result is the single region `[0, total_samples)`. -/
theorem c1_regions_partition (t : ℚ) (rest : List ℚ) (sr tot base : ℤ)
    (hsr : 0 < sr)
    (hasc : List.Chain' (· < ·) (t :: rest))
    (hbound : ∀ x ∈ t :: rest, 0 ≤ x ∧ x < (tot : ℚ) / (sr : ℚ)) :
    (compute_sample_regions (t :: rest) sr tot base).length = (t :: rest).length ∧
      List.Chain' (fun a b => a.end_sample = b.start_sample)
        (compute_sample_regions (t :: rest) sr tot base) ∧
      List.Pairwise (fun a b => a.end_sample ≤ b.start_sample)
        (compute_sample_regions (t :: rest) sr tot base) ∧
      ((compute_sample_regions (t :: rest) sr tot base).getLast?).map
        SampleRegion.end_sample = some tot ∧
      (∀ r ∈ compute_sample_regions (t :: rest) sr tot base, r.end_sample ≤ tot) ∧
      (∀ j : ℤ, coveredBy (compute_sample_regions (t :: rest) sr tot base) j ↔
        (markerSample sr t ≤ j ∧ j < tot)) ∧
      (∀ sr2 tot2 base2 : ℤ, compute_sample_regions [] sr2 tot2 base2 = [⟨0, tot2, base2⟩]) := by
  have hsr' : (0 : ℚ) < (sr : ℚ) := by exact_mod_cast hsr
  have hbound' : ∀ x ∈ t :: rest, 0 ≤ x ∧ x * sr < tot := by
    intro x hx
    refine ⟨(hbound x hx).1, ?_⟩
    exact (lt_div_iff₀ hsr').mp (hbound x hx).2
  have hle : List.Chain' (· ≤ ·) (t :: rest) := hasc.imp (fun _ _ h => le_of_lt h)
  have hne : ¬ (t :: rest).isEmpty = true := by simp
  have hcsr : compute_sample_regions (t :: rest) sr tot base =
      regionsFrom sr tot (t :: rest) base := by
    rw [compute_sample_regions, if_neg hne]
  rw [hcsr]
  refine ⟨regionsFrom_length sr tot _ base, regionsFrom_chain sr tot _ base, ?_, ?_, ?_, ?_, ?_⟩
  · exact chain_end_start_pairwise _ (regionsFrom_chain sr tot _ base)
      (regionsFrom_start_le_end hsr _ base hle hbound')
  · exact regionsFrom_getLast sr tot _ base (by simp)
  · exact regionsFrom_end_le hsr _ base hbound'
  · exact regionsFrom_covered hsr rest t base hle hbound'
  · intro sr2 tot2 base2; rfl

/-- C1, witness: the amended theorem at markers `[1.0, 3.0]`, 10 Hz, 50
samples, base pitch 36, discharging the ordering and range hypotheses. -/
theorem c1_regions_partition_witness :
    (compute_sample_regions [1, 3] 10 50 36).length = ([1, 3] : List ℚ).length :=
  (c1_regions_partition 1 [3] 10 50 36 (by norm_num)
    (by norm_num) (by intro x hx; simp at hx; rcases hx with h | h <;> rw [h] <;> norm_num)).1

/-- C2, counterexample: with a 50-sample buffer at 10 Hz, markers
`[1.0, 3.0]` s and base pitch 36, the code derives two regions — one per
marker — not the three regions `[(0,10,36),(10,30,37),(30,50,38)]` the claim
lists (no region `[0, firstMarker)` is prepended). -/
theorem c2_scenario_counterexample :
    compute_sample_regions [1, 3] 10 50 36 ≠
      [⟨0, 10, 36⟩, ⟨10, 30, 37⟩, ⟨30, 50, 38⟩] := by
  have h : compute_sample_regions [1, 3] 10 50 36 = [⟨10, 30, 36⟩, ⟨30, 50, 37⟩] := by
    norm_num [compute_sample_regions, regionsFrom, markerSample, cppTrunc, Int.floor_eq_iff]
  rw [h]
  simp

/-- C2, amended: for a 50-sample buffer at 10 Hz with markers `[1.0, 3.0]` s
and base pitch 36, region derivation produces exactly
`[(10, 30, 36), (30, 50, 37)]`. -/
theorem c2_scenario_regions :
    compute_sample_regions [1, 3] 10 50 36 = [⟨10, 30, 36⟩, ⟨30, 50, 37⟩] := by
  norm_num [compute_sample_regions, regionsFrom, markerSample, cppTrunc, Int.floor_eq_iff]

/-- Playback state, `struct Playback` (the SDL device handle and audio spec
are opaque OS resources and are not modelled).  `end` is a Lean keyword, so
that field is named `endp`. -/
structure Playback where
  playing : Bool
  start : ℕ
  endp : ℕ
  cursor : ℕ
  volume : ℚ
deriving DecidableEq

/-- The C cast `(size_t)x` applied to the nonnegative float quantities in
`play_segment_seconds`. -/
def sizeT (x : ℚ) : ℕ := (cppTrunc x).toNat

/-- One output frame of `sdl_audio_cb`: while `playing` holds and the cursor
is both before `end` and inside the buffer, emit `waveform[cursor] * volume`
and advance the cursor, clearing `playing` once the cursor reaches `end`;
otherwise emit silence `0.f`. -/
def sdl_audio_cb_frame (waveform : List ℚ) (p : Playback) : ℚ × Playback :=
  if p.playing = true ∧ p.cursor < p.endp ∧ p.cursor < waveform.length then
    (waveform.getD p.cursor 0 * p.volume,
      { p with cursor := p.cursor + 1,
               playing := if p.endp ≤ p.cursor + 1 then false else p.playing })
  else (0, p)

/-- The `sdl_audio_cb` frame loop, producing `n` output frames
(`frames = len / sizeof(float)` per invocation; consecutive invocations
compose, so the frame count is left arbitrary). -/
def sdl_audio_cb (waveform : List ℚ) (p : Playback) : ℕ → List ℚ × Playback
  | 0 => ([], p)
  | n + 1 =>
      let fr := sdl_audio_cb_frame waveform p
      let rest := sdl_audio_cb waveform fr.2 n
      (fr.1 :: rest.1, rest.2)

theorem sdl_audio_cb_succ (waveform : List ℚ) (p : Playback) (n : ℕ) :
    sdl_audio_cb waveform p (n + 1) =
      ((sdl_audio_cb_frame waveform p).1 ::
          (sdl_audio_cb waveform (sdl_audio_cb_frame waveform p).2 n).1,
        (sdl_audio_cb waveform (sdl_audio_cb_frame waveform p).2 n).2) := rfl

/-- `play_segment_seconds(start_s, end_s)`: seconds to sample indices; a
degenerate range (`end <= start`) is replaced by a half-second window clamped
to the buffer; `end` is clamped to the buffer length; the cursor rewinds to
`start` and playing begins. -/
def play_segment_seconds (waveform : List ℚ) (samplerate : ℤ) (p : Playback)
    (start_s end_s : ℚ) : Playback :=
  let start := sizeT (start_s * samplerate)
  let end0 := sizeT (end_s * samplerate)
  let end1 := if end0 ≤ start then min waveform.length (start + sizeT ((1/2) * samplerate))
    else end0
  { p with start := start, cursor := start,
           endp := min end1 waveform.length, playing := true }

/-- `stop_playback()` merely clears the flag. -/
def stop_playback (p : Playback) : Playback := { p with playing := false }

theorem sdl_audio_cb_frame_volume (waveform : List ℚ) (p : Playback) :
    (sdl_audio_cb_frame waveform p).2.volume = p.volume := by
  rw [sdl_audio_cb_frame]
  split <;> rfl

theorem sdl_audio_cb_frame_not_playing (waveform : List ℚ) (p : Playback)
    (h : p.playing = false) : sdl_audio_cb_frame waveform p = (0, p) := by
  rw [sdl_audio_cb_frame, if_neg]
  simp [h]

theorem sdl_audio_cb_not_playing (waveform : List ℚ) (p : Playback) (n : ℕ)
    (h : p.playing = false) :
    sdl_audio_cb waveform p n = (List.replicate n 0, p) := by
  induction n with
  | zero => rfl
  | succ n ih =>
    rw [sdl_audio_cb_succ, sdl_audio_cb_frame_not_playing waveform p h]
    simp [ih, List.replicate]

theorem sdl_audio_cb_inside (waveform : List ℚ) :
    ∀ (n : ℕ) (p : Playback), p.playing = true → p.cursor + n < p.endp →
      p.endp ≤ waveform.length →
      (sdl_audio_cb waveform p n).2 = { p with cursor := p.cursor + n } := by
  intro n
  induction n with
  | zero => intro p _ _ _; simp [sdl_audio_cb]
  | succ n ih =>
    intro p hp hlt hle
    have hframe : (sdl_audio_cb_frame waveform p).2 = { p with cursor := p.cursor + 1 } := by
      rw [sdl_audio_cb_frame, if_pos ⟨hp, by omega, by omega⟩]
      simp only
      rw [if_neg (by omega), hp]
    rw [sdl_audio_cb_succ]
    simp only
    rw [hframe, ih { p with cursor := p.cursor + 1 } hp (by simp; omega) hle]
    simp only
    congr 1
    omega

theorem sdl_audio_cb_finish (waveform : List ℚ) :
    ∀ (n : ℕ) (p : Playback), n ≠ 0 → p.playing = true → p.cursor + n = p.endp →
      p.endp ≤ waveform.length →
      (sdl_audio_cb waveform p n).2 =
        { p with cursor := p.endp, playing := false } := by
  intro n
  induction n with
  | zero => intro p h; exact absurd rfl h
  | succ n ih =>
    intro p _ hp hfin hle
    have hframe : (sdl_audio_cb_frame waveform p).2 =
        { p with cursor := p.cursor + 1,
                 playing := if p.endp ≤ p.cursor + 1 then false else true } := by
      rw [sdl_audio_cb_frame, if_pos ⟨hp, by omega, by omega⟩, hp]
    rw [sdl_audio_cb_succ]
    simp only
    rcases Nat.eq_zero_or_pos n with hn | hn
    · subst hn
      rw [hframe, if_pos (by omega)]
      simp [sdl_audio_cb]
      omega
    · rw [hframe, if_neg (by omega)]
      rw [ih { p with cursor := p.cursor + 1, playing := true } (by omega) rfl
        (by simp; omega) hle]

/-- C6: after `playRange(1.0, 2.0)` on a 44100 Hz buffer containing sample
index 88200, consuming exactly 44100 output frames leaves the cursor at
88200 with `playing` cleared, and every frame produced afterwards is silence;
in general, one frame emitted while playing with the cursor before `end` and
inside the buffer equals `sample[cursor] * volume`, advances the cursor by
one, and clears `playing` exactly when the advanced cursor reaches `end`. -/
theorem c6_playback_completion (waveform : List ℚ) (p : Playback)
    (hlen : 88200 ≤ waveform.length) :
    (sdl_audio_cb waveform (play_segment_seconds waveform 44100 p 1 2) 44100).2.playing
        = false ∧
      (sdl_audio_cb waveform (play_segment_seconds waveform 44100 p 1 2) 44100).2.cursor
        = 88200 ∧
      (∀ m, sdl_audio_cb waveform
          (sdl_audio_cb waveform (play_segment_seconds waveform 44100 p 1 2) 44100).2 m =
        (List.replicate m 0,
          (sdl_audio_cb waveform (play_segment_seconds waveform 44100 p 1 2) 44100).2)) ∧
      (∀ (wf2 : List ℚ) (q : Playback), q.playing = true → q.cursor < q.endp →
        q.cursor < wf2.length →
        (sdl_audio_cb_frame wf2 q).1 = wf2.getD q.cursor 0 * q.volume ∧
          (sdl_audio_cb_frame wf2 q).2.cursor = q.cursor + 1 ∧
          ((sdl_audio_cb_frame wf2 q).2.playing = false ↔ q.endp ≤ q.cursor + 1)) := by
  have hstart : sizeT ((1 : ℚ) * ((44100 : ℤ) : ℚ)) = 44100 := by
    norm_num [sizeT, cppTrunc, Int.floor_eq_iff]
    rfl
  have hend : sizeT ((2 : ℚ) * ((44100 : ℤ) : ℚ)) = 88200 := by
    norm_num [sizeT, cppTrunc, Int.floor_eq_iff]
    rfl
  have hp0 : play_segment_seconds waveform 44100 p 1 2 =
      { p with start := 44100, cursor := 44100, endp := 88200, playing := true } := by
    rw [play_segment_seconds]
    simp only [hstart, hend]
    rw [if_neg (by omega), min_eq_left hlen]
  have hrun : (sdl_audio_cb waveform (play_segment_seconds waveform 44100 p 1 2) 44100).2 =
      { p with start := 44100, endp := 88200, cursor := 88200, playing := false } := by
    rw [hp0]
    exact sdl_audio_cb_finish waveform 44100 _ (by omega) rfl (by norm_num) hlen
  refine ⟨by rw [hrun], by rw [hrun], ?_, ?_⟩
  · intro m
    rw [hrun]
    exact sdl_audio_cb_not_playing waveform _ m rfl
  · intro wf2 q hq hqe hqw
    have hguard : q.playing = true ∧ q.cursor < q.endp ∧ q.cursor < wf2.length :=
      ⟨hq, hqe, hqw⟩
    refine ⟨?_, ?_, ?_⟩
    · rw [sdl_audio_cb_frame, if_pos hguard]
    · rw [sdl_audio_cb_frame, if_pos hguard]
    · rw [sdl_audio_cb_frame, if_pos hguard]
      simp only [hq]
      split
      · rename_i h
        simpa using h
      · rename_i h
        simpa using h

/-- C6, witness: the completion theorem applied to an 88200-sample silent
buffer, discharging the length hypothesis. -/
theorem c6_playback_completion_witness :
    (sdl_audio_cb (List.replicate 88200 (0 : ℚ))
        (play_segment_seconds (List.replicate 88200 (0 : ℚ)) 44100
          ⟨false, 0, 0, 0, 4/5⟩ 1 2) 44100).2.playing = false :=
  (c6_playback_completion (List.replicate 88200 (0 : ℚ)) ⟨false, 0, 0, 0, 4/5⟩
    (by rw [List.length_replicate])).1

/-- C10: for every playback state — including `end` beyond the buffer — the
callback writes all `n` requested frames, and each written frame is either
silence or an in-bounds sample scaled by the volume: the `cursor <
waveform.size()` conjunct of the guard makes an out-of-bounds read
unreachable. -/
theorem c10_audio_cb_safety (waveform : List ℚ) (p : Playback) (n : ℕ) :
    (sdl_audio_cb waveform p n).1.length = n ∧
      ∀ s ∈ (sdl_audio_cb waveform p n).1,
        s = 0 ∨ ∃ i, i < waveform.length ∧ s = waveform.getD i 0 * p.volume := by
  induction n generalizing p with
  | zero => exact ⟨rfl, by simp [sdl_audio_cb]⟩
  | succ n ih =>
    rw [sdl_audio_cb_succ]
    obtain ⟨ihl, ihm⟩ := ih (sdl_audio_cb_frame waveform p).2
    refine ⟨by simp [ihl], ?_⟩
    intro s hs
    rcases List.mem_cons.mp hs with h | h
    · subst h
      rw [sdl_audio_cb_frame]
      split
      · rename_i hguard
        exact Or.inr ⟨p.cursor, hguard.2.2, rfl⟩
      · exact Or.inl rfl
    · rcases ihm s h with h0 | ⟨i, hi, hv⟩
      · exact Or.inl h0
      · exact Or.inr ⟨i, hi, by rw [hv, sdl_audio_cb_frame_volume]⟩

/-- C10, witness: the safety theorem applied to a concrete two-sample buffer
with `end` past the buffer length. -/
theorem c10_audio_cb_safety_witness :
    (sdl_audio_cb [1, 2] ⟨true, 0, 5, 0, 1⟩ 4).1.length = 4 :=
  (c10_audio_cb_safety [1, 2] ⟨true, 0, 5, 0, 1⟩ 4).1

/-- Engine-level mutable state: the globals `samplerate`, `waveform`,
`markers`, `loaded_filename` and `g_play` (the drawing envelope `g_wf` is
display-only and not modelled; no claim concerns it). -/
structure EngineState where
  samplerate : ℤ
  waveform : List ℚ
  markers : List ℚ
  loaded_filename : String
  play : Playback

/-- Mono mix of frame `i` in `load_wav_mono`:
`accum = Σ_c fdata[i*channels + c]`, then `accum / channels`. -/
def mono_frame (channels : ℕ) (fdata : List ℚ) (i : ℕ) : ℚ :=
  (((List.range channels).map (fun c => fdata.getD (i * channels + c) 0)).sum) /
    (channels : ℚ)

/-- Success path of `load_wav_mono`: given the decoder output (`freq`,
channel count and interleaved float data, as produced by `SDL_LoadWAV` +
`SDL_ConvertAudio`), store the sample rate, average the channels into the
mono `waveform` (`frames = cvt.len_cvt / (sizeof(float) * channels)`), and
record the filename.  The source neither clears `markers` nor touches
`g_play`. -/
def load_wav_mono (st : EngineState) (path : String) (freq : ℤ)
    (channels : ℕ) (fdata : List ℚ) : EngineState :=
  { st with
      samplerate := freq,
      waveform := (List.range (fdata.length / channels)).map (mono_frame channels fdata),
      loaded_filename := path }

/-- A state with one marker placed and playback running, fed to `load_wav_mono`. -/
def c3state : EngineState :=
  ⟨44100, [], [1/2], "", ⟨true, 0, 0, 0, 4/5⟩⟩

/-- C3, counterexample: loading a new file over a state that has a marker and
is playing leaves the marker store non-empty and the playing flag set —
`load_wav_mono` does not clear the Marker Store and does not reset the
Playback State to Idle. -/
theorem c3_load_counterexample :
    (load_wav_mono c3state "take2.wav" 48000 1 [0]).markers = [1/2] ∧
      (load_wav_mono c3state "take2.wav" 48000 1 [0]).markers ≠ [] ∧
      (load_wav_mono c3state "take2.wav" 48000 1 [0]).play.playing = true := by
  refine ⟨rfl, by simp [load_wav_mono, c3state], rfl⟩

/-- C3, amended: a successful `load_wav_mono` replaces the Sample Buffer —
the new sample rate is stored and the waveform becomes the channel-averaged
decoded data — and records the filename, but leaves the Marker Store and the
Playback State exactly as they were (it neither clears markers nor stops
playback). -/
theorem c3_load_wav_mono_effects (st : EngineState) (path : String) (freq : ℤ)
    (channels : ℕ) (fdata : List ℚ) :
    (load_wav_mono st path freq channels fdata).markers = st.markers ∧
      (load_wav_mono st path freq channels fdata).play = st.play ∧
      (load_wav_mono st path freq channels fdata).samplerate = freq ∧
      (load_wav_mono st path freq channels fdata).loaded_filename = path ∧
      (load_wav_mono st path freq channels fdata).waveform.length =
        fdata.length / channels ∧
      (∀ i, i < fdata.length / channels →
        (load_wav_mono st path freq channels fdata).waveform.getD i 0 =
          mono_frame channels fdata i) := by
  refine ⟨rfl, rfl, rfl, rfl, by simp [load_wav_mono], ?_⟩
  intro i hi
  simp [load_wav_mono, List.getD_eq_getElem?_getD, List.getElem?_map,
    List.getElem?_range, hi]

/-- C3, witness: the amended theorem at a concrete stereo two-sample load,
discharging the frame-index hypothesis at `i = 0`. -/
theorem c3_load_wav_mono_effects_witness :
    (load_wav_mono c3state "b.wav" 22050 2 [1, 1]).waveform.getD 0 0 =
      mono_frame 2 [1, 1] 0 :=
  (c3_load_wav_mono_effects c3state "b.wav" 22050 2 [1, 1]).2.2.2.2.2 0 (by norm_num)

end Reslice
